import Mathlib

/-!
Verification of the template-based message pipeline and tool dispatch of the
gmail-mcp-server repository (src/index.js), as a shallow embedding in Lean.

Strings are modelled as `List Char`.  JavaScript string operations used by the
source (`String.prototype.match` with the regex `/^Subject:\s*(.*)$/m`,
`String.prototype.replace` with a string pattern, `String.prototype.trim`,
`path.join`) are embedded as executable Lean functions over `List Char`.
Whitespace and line-terminator classes are modelled at the ASCII level
(the subset relevant to the regex classes `\s` and `.`/`$` used by the code).
-/

/-- The ASCII part of the JavaScript whitespace class `\s`
(also the class trimmed by `String.prototype.trim`). -/
def isJsSpace (c : Char) : Bool :=
  c = ' ' || c = '\t' || c = '\n' || c = '\r' || c = '\x0b' || c = '\x0c'

/-- Line terminators recognised by the JavaScript regex anchors `^`/`$`
and excluded by `.` (ASCII part). -/
def isLineTerm (c : Char) : Bool :=
  c = '\n' || c = '\r'

/-- The literal keyword of the regex `/^Subject:\s*(.*)$/m` in src/index.js line 400. -/
def subjectKw : List Char := "Subject:".toList

/-- Attempt of the regex `/^Subject:\s*(.*)$/m` at the current position
(which the caller guarantees to be a line start).  Returns
`some (match0, group1)`: the whole matched text and the first capture group.
`\s*` is greedy (and `\s` includes line terminators), `(.*)` then takes the
rest of the current line, and `$` always holds at that point. -/
def matchAt (l : List Char) : Option (List Char × List Char) :=
  if subjectKw.isPrefixOf l then
    let rest := l.drop 8
    let ws := rest.takeWhile isJsSpace
    let afterWs := rest.dropWhile isJsSpace
    let dot := afterWs.takeWhile (fun c => !isLineTerm c)
    some (subjectKw ++ ws ++ dot, dot)
  else
    none

/-- Scan of the multiline regex past position 0: `^` only matches just after a
line terminator, so the engine tries the pattern right after each terminator,
left to right. -/
def scanAfterTerm : List Char → Option (List Char × List Char)
  | [] => none
  | c :: rest =>
    if isLineTerm c then
      match matchAt rest with
      | some r => some r
      | none => scanAfterTerm rest
    else
      scanAfterTerm rest

/-- `raw.match(/^Subject:\s*(.*)$/m)` (src/index.js line 400): first the
attempt at position 0, then at every position following a line terminator. -/
def jsMatchSubject (raw : List Char) : Option (List Char × List Char) :=
  match matchAt raw with
  | some r => some r
  | none => scanAfterTerm raw

/-- `String.prototype.trim`: strip leading and trailing whitespace. -/
def trim (l : List Char) : List Char :=
  ((l.dropWhile isJsSpace).reverse.dropWhile isJsSpace).reverse

/-- `String.prototype.replace` with a string pattern and empty replacement:
remove the first literal occurrence of `pat` (the original list when absent). -/
def replaceFirst (pat : List Char) : List Char → List Char
  | [] => []
  | c :: rest =>
    if pat.isPrefixOf (c :: rest) then (c :: rest).drop pat.length
    else c :: replaceFirst pat rest

/-- The literal default subject of src/index.js line 398. -/
def noSubjectDefault : List Char := "No Subject".toList

/-- `fallbackSubject || 'No Subject'` (src/index.js line 398): JavaScript `||`
treats an absent argument and an empty string alike as falsy. -/
def jsOrDefault (fb : Option (List Char)) : List Char :=
  match fb with
  | some f => if f.isEmpty then noSubjectDefault else f
  | none => noSubjectDefault

/-- Subject/body extraction of `sendTemplateEmail` (src/index.js lines 398-404):
`let subject = fallbackSubject || 'No Subject'; let body = raw;`
`const subjectMatch = raw.match(/^Subject:\s*(.*)$/m);`
`if (subjectMatch) { subject = subjectMatch[1].trim();`
`  body = raw.replace(subjectMatch[0], '').trim(); }` -/
def templateSubjectBody (raw : List Char) (fallbackSubject : Option (List Char)) :
    List Char × List Char :=
  match jsMatchSubject raw with
  | some m => (trim m.2, trim (replaceFirst m.1 raw))
  | none => (jsOrDefault fallbackSubject, raw)

/-! ## Template store: path resolution (src/index.js lines 375-377 and 389-396) -/

/-- Split a path into `/`-separated segments (Node's first normalisation step). -/
def splitSegs : List Char → List (List Char)
  | [] => [[]]
  | c :: rest =>
    if c = '/' then [] :: splitSegs rest
    else
      match splitSegs rest with
      | [] => [[c]]
      | seg :: segs => (c :: seg) :: segs

/-- Segment normalisation of Node's `path.normalize` for an absolute path:
empty and `.` segments are dropped, `..` pops the previous segment
(dropped at the root).  `acc` is the stack of kept segments, most recent first. -/
def normSegs : List (List Char) → List (List Char) → List (List Char)
  | [], acc => acc.reverse
  | seg :: rest, acc =>
    if seg = [] ∨ seg = ['.'] then normSegs rest acc
    else if seg = ['.', '.'] then normSegs rest acc.tail
    else normSegs rest (seg :: acc)

/-- Node `path.join(dir, name)` for an absolute `dir`: concatenate with `/`,
then normalise.  `templateDir()` (src/index.js line 376) is always absolute,
so only the absolute case is modelled. -/
def pathJoinAbs (dir name : List Char) : List Char :=
  '/' :: List.intercalate ['/'] (normSegs (splitSegs (dir ++ '/' :: name)) [])

/-- `path.join(dir, template + '.txt')` (src/index.js line 392). -/
def templateFilePath (dir name : List Char) : List Char :=
  pathJoinAbs dir (name ++ ".txt".toList)

/-- Outcome of the template-resolution step of `sendTemplateEmail`. -/
inductive ResolveOutcome where
  | notFound (msg : List Char)
  | readFile (path : List Char)
deriving DecidableEq

/-- Template-resolution step of `sendTemplateEmail` (src/index.js lines 391-396):
join the name onto the template directory, return the textual
`Template not found` result if the file does not exist, otherwise read that
path.  `fsExists` abstracts `fs.existsSync`. -/
def resolveTemplate (fsExists : List Char → Bool) (dir name : List Char) : ResolveOutcome :=
  let filePath := templateFilePath dir name
  if fsExists filePath then .readFile filePath
  else .notFound ("Template not found: ".toList ++ name)

/-! ## Template listing (src/index.js lines 379-387) -/

/-- `fs.readdirSync(dir).filter(f => f.endsWith('.txt')).map(f => f.replace(/\.txt$/, ''))`
(src/index.js lines 384-385).  On a name that ends with `.txt`, the regex
replace removes exactly that four-character suffix. -/
def listTemplateNames (files : List (List Char)) : List (List Char) :=
  (files.filter (fun f => ".txt".toList.isSuffixOf f)).map
    (fun f => f.take (f.length - 4))

/-- Result shape of `listEmailTemplates`: either the JSON-serialised name list
or the plain textual message for a missing directory. -/
inductive ListTemplatesOutcome where
  | namesJson (names : List (List Char))
  | message (msg : List Char)
deriving DecidableEq

/-- `listEmailTemplates` (src/index.js lines 379-387): a missing template
directory yields the textual result `No templates directory found.`;
otherwise the `.txt` files of the directory listing are turned into names.
`dirExists` abstracts `fs.existsSync(dir)`, `files` the `fs.readdirSync` listing. -/
def listEmailTemplatesModel (dirExists : Bool) (files : List (List Char)) :
    ListTemplatesOutcome :=
  if dirExists then .namesJson (listTemplateNames files)
  else .message "No templates directory found.".toList

/-! ## Template renderer

`Mustache.render` (src/index.js lines 406-407) comes from the third-party
mustache library, which is not part of this repository's sources.  It is
modelled from the spec: a delimiter-based (double-brace) placeholder
substitution where a placeholder whose name is bound in the variable map is
replaced by the bound value, an unbound placeholder renders as the empty
string, and malformed placeholder syntax (an unclosed tag) is a render
failure rather than output. -/

/-- First value bound to `name` in the variable map; empty when unbound. -/
def lookupOrEmpty (vars : List (List Char × List Char)) (name : List Char) : List Char :=
  match vars.find? (fun p => p.1 == name) with
  | some p => p.2
  | none => []

/-- Modelled from the spec: the mustache render loop (the mustache library is
not under src/).  The first argument is `none` in literal mode and
`some acc` inside a `\x7b\x7b ... \x7d\x7d` tag with `acc` the name read so far;
a tag left unclosed at the end of the input is a render failure. -/
def renderAux (vars : List (List Char × List Char)) :
    Option (List Char) → List Char → Except String (List Char)
  | none, [] => .ok []
  | none, '{' :: '{' :: rest => renderAux vars (some []) rest
  | none, c :: rest => (renderAux vars none rest).map (fun r => c :: r)
  | some _, [] => .error "Unclosed tag"
  | some acc, '}' :: '}' :: rest =>
    (renderAux vars none rest).map (fun r => lookupOrEmpty vars (trim acc) ++ r)
  | some acc, c :: rest => renderAux vars (some (acc ++ [c])) rest

/-- Modelled from the spec: `render(text, variables)`. -/
def renderTemplate (text : List Char) (vars : List (List Char × List Char)) :
    Except String (List Char) :=
  renderAux vars none text

/-! ## The send_template_email pipeline (src/index.js lines 389-409) -/

/-- Outcome of `sendTemplateEmail`: the not-found textual result, a render
failure thrown out of `Mustache.render`, or the composed message handed to
`sendEmail` (the delivery gateway). -/
inductive SendOutcome where
  | notFound (name : List Char)
  | renderError (msg : String)
  | sent (toAddr subject body : List Char)
deriving DecidableEq

/-- `sendTemplateEmail` (src/index.js lines 389-409): resolve the template
file, split subject and body, render both (subject first), and only then
hand the composed message to `sendEmail`.  A render failure aborts the
operation before any send.  `fsExists`/`fsRead` abstract `fs.existsSync` and
`fs.readFileSync`. -/
def sendTemplateEmailModel (fsExists : List Char → Bool) (fsRead : List Char → List Char)
    (dir toAddr template : List Char) (vars : List (List Char × List Char))
    (fallbackSubject : Option (List Char)) : SendOutcome :=
  match resolveTemplate fsExists dir template with
  | .notFound _ => .notFound template
  | .readFile p =>
    let raw := fsRead p
    let sb := templateSubjectBody raw fallbackSubject
    match renderTemplate sb.1 vars with
    | .error e => .renderError e
    | .ok renderedSubject =>
      match renderTemplate sb.2 vars with
      | .error e => .renderError e
      | .ok renderedBody => .sent toAddr renderedSubject renderedBody

/-- `true` exactly when a render result is a failure. -/
def isRenderError : Except String (List Char) → Bool
  | .error _ => true
  | .ok _ => false

/-! ## OAuth-gated inbox operations (src/index.js lines 320-373)

`hasOAuthEnv`, `createGmailClient` and the provider calls live in
`lib/gmail.js`, which is not among the sources; `hasOAuthEnv` is therefore
modelled from the spec.  The gating itself (`ensureOAuthAvailable` and the
five tool methods) is embedded from src/index.js. -/

/-- The four credentials named by the not-configured message of
src/index.js line 327. -/
def oauthEnvKeys : List (List Char) :=
  ["GMAIL_CLIENT_ID".toList, "GMAIL_CLIENT_SECRET".toList,
   "GMAIL_REDIRECT_URI".toList, "GMAIL_REFRESH_TOKEN".toList]

/-- A credential is present when the environment binds it to a non-empty value
(an empty string is falsy in JavaScript). -/
def credPresent (env : List Char → Option (List Char)) (key : List Char) : Bool :=
  match env key with
  | some v => !v.isEmpty
  | none => false

/-- Modelled from the spec: `hasOAuthEnv` of lib/gmail.js (not under src/) —
the inbox-provider family requires the full credential set (client id,
client secret, redirect URI, refresh token); it is available only when all
four are present. -/
def hasOAuthEnv (env : List Char → Option (List Char)) : Bool :=
  oauthEnvKeys.all (credPresent env)

/-- The not-configured message of src/index.js lines 326-328. -/
def oauthMissingMsg : List Char :=
  ("OAuth2 environment variables missing. Provide GMAIL_CLIENT_ID, " ++
   "GMAIL_CLIENT_SECRET, GMAIL_REDIRECT_URI, GMAIL_REFRESH_TOKEN to use this tool.").toList

/-- `ensureOAuthAvailable` (src/index.js lines 320-333): `some` of the
structured not-configured result when a credential is missing, else `none`. -/
def ensureOAuthAvailable (env : List Char → Option (List Char)) : Option (List Char) :=
  if hasOAuthEnv env then none else some oauthMissingMsg

/-- Outcome of an OAuth-gated tool: the structured not-configured text, or the
result of the provider call. -/
inductive GatedOutcome where
  | notConfigured (msg : List Char)
  | providerResult (r : List Char)
deriving DecidableEq

/-- `listLabels` (src/index.js lines 335-341): return the not-configured
result before any provider call, else delegate.  `provider` abstracts
`createGmailClient` plus `listLabels(gmail)` of lib/gmail.js. -/
def listLabelsOp (env : List Char → Option (List Char))
    (provider : Unit → List Char) : GatedOutcome :=
  match ensureOAuthAvailable env with
  | some missing => .notConfigured missing
  | none => .providerResult (provider ())

/-- `listUnreadEmails` (src/index.js lines 343-349), same gating; `provider`
abstracts `listUnread(gmail, args)`. -/
def listUnreadEmailsOp (env : List Char → Option (List Char))
    (args : List Char) (provider : List Char → List Char) : GatedOutcome :=
  match ensureOAuthAvailable env with
  | some missing => .notConfigured missing
  | none => .providerResult (provider args)

/-- `getEmail` (src/index.js lines 351-357), same gating. -/
def getEmailOp (env : List Char → Option (List Char))
    (args : List Char) (provider : List Char → List Char) : GatedOutcome :=
  match ensureOAuthAvailable env with
  | some missing => .notConfigured missing
  | none => .providerResult (provider args)

/-- `archiveEmail` (src/index.js lines 359-365), same gating. -/
def archiveEmailOp (env : List Char → Option (List Char))
    (args : List Char) (provider : List Char → List Char) : GatedOutcome :=
  match ensureOAuthAvailable env with
  | some missing => .notConfigured missing
  | none => .providerResult (provider args)

/-- `deleteEmail` (src/index.js lines 367-373), same gating. -/
def deleteEmailOp (env : List Char → Option (List Char))
    (args : List Char) (provider : List Char → List Char) : GatedOutcome :=
  match ensureOAuthAvailable env with
  | some missing => .notConfigured missing
  | none => .providerResult (provider args)

/-! ## Tool dispatch boundary (src/index.js lines 178-209) -/

/-- The protocol error codes used by src/index.js. -/
inductive McpCode where
  | methodNotFound
  | internalError
deriving DecidableEq

/-- The numeric JSON-RPC code of each `ErrorCode` member, as it appears in an
`McpError`'s message. -/
def mcpCodeText : McpCode → List Char
  | .methodNotFound => "-32601".toList
  | .internalError => "-32603".toList

/-- A thrown JavaScript value inside the handler: a plain `Error` (from a tool
method) or an `McpError`. -/
inductive Thrown where
  | jsError (msg : List Char)
  | mcpThrown (code : McpCode) (msg : List Char)
deriving DecidableEq

/-- `error.message` of a thrown value; the SDK's `McpError` constructor
prefixes its message with `MCP error <code>: `. -/
def thrownMessage : Thrown → List Char
  | .jsError m => m
  | .mcpThrown code m => "MCP error ".toList ++ mcpCodeText code ++ ": ".toList ++ m

/-- The ten tool names registered by `setupToolHandlers`
(src/index.js lines 182-202). -/
def knownToolNames : List (List Char) :=
  ["send_email".toList, "send_introduction_email".toList, "check_gmail_config".toList,
   "list_labels".toList, "list_unread_emails".toList, "get_email".toList,
   "archive_email".toList, "delete_email".toList, "list_email_templates".toList,
   "send_template_email".toList]

/-- The `CallToolRequestSchema` handler (src/index.js lines 178-209): the
`switch` dispatches known names to their methods (whose outcome — a result or
a thrown `Error` — is abstracted by `handlers`), the `default` branch throws
`McpError(ErrorCode.MethodNotFound, ...)`; the surrounding `catch` converts
every thrown value, that `McpError` included, into a thrown
`McpError(ErrorCode.InternalError, 'Error executing <name>: <message>')`. -/
def callToolModel (handlers : List Char → Except (List Char) (List Char))
    (name : List Char) : Except Thrown (List Char) :=
  let tryBlock : Except Thrown (List Char) :=
    if name ∈ knownToolNames then
      match handlers name with
      | .ok r => .ok r
      | .error m => .error (.jsError m)
    else
      .error (.mcpThrown .methodNotFound ("Unknown tool: ".toList ++ name))
  match tryBlock with
  | .ok r => .ok r
  | .error e =>
    .error (.mcpThrown .internalError
      ("Error executing ".toList ++ name ++ ": ".toList ++ thrownMessage e))

/-! ## Spec-side view of the template text

The spec speaks of the first line of the template matching the `Subject:`
pattern; these definitions give that line-based decomposition, to be related
to the regex scan embedded above. -/

/-- The lines of a text, splitting at every line terminator
(the terminators themselves belong to no line). -/
def jsLines : List Char → List (List Char)
  | [] => [[]]
  | c :: rest =>
    if isLineTerm c then [] :: jsLines rest
    else
      match jsLines rest with
      | [] => [[c]]
      | line :: lines => (c :: line) :: lines

/-- Decomposition at the first line (beyond the first) that starts with
`Subject:`: `some (before, line, after)` with the text equal to
`before ++ line ++ after`, `before` ending at that line's start and `after`
starting at the terminator ending that line.  Scans positions following a
line terminator, like the regex `^`. -/
def splitAfterTerm : List Char → Option (List Char × List Char × List Char)
  | [] => none
  | c :: rest =>
    if isLineTerm c ∧ subjectKw.isPrefixOf rest then
      some ([c], rest.takeWhile (fun x => !isLineTerm x),
            rest.dropWhile (fun x => !isLineTerm x))
    else
      (splitAfterTerm rest).map (fun t => (c :: t.1, t.2.1, t.2.2))

/-- Decomposition of a text at its first line starting with `Subject:`:
`some (before, line, after)` where `line` is that whole line (without its
terminator), `before` is everything preceding it and `after` everything
following it (starting with the terminator, when the line is not last). -/
def splitAtFirstSubjectLine (raw : List Char) : Option (List Char × List Char × List Char) :=
  if subjectKw.isPrefixOf raw then
    some ([], raw.takeWhile (fun x => !isLineTerm x), raw.dropWhile (fun x => !isLineTerm x))
  else
    splitAfterTerm raw

/-- `true` when the template text either has no `Subject:` match or the
matched, trimmed capture group is non-empty. -/
def parsedSubjectNonempty (raw : List Char) : Bool :=
  match jsMatchSubject raw with
  | some p => !(trim p.2).isEmpty
  | none => true

/-! ## Helper lemmas on lists -/

lemma prefixOf_iff {p q : List Char} : p.isPrefixOf q = true ↔ ∃ r, q = p ++ r := by
  induction p generalizing q with
  | nil => simp [List.isPrefixOf]
  | cons a as ih =>
    cases q with
    | nil => simp [List.isPrefixOf]
    | cons b bs =>
      simp only [List.isPrefixOf, Bool.and_eq_true, beq_iff_eq, ih, List.cons_append,
        List.cons.injEq]
      constructor
      · rintro ⟨rfl, r, rfl⟩
        exact ⟨r, rfl, rfl⟩
      · rintro ⟨r, rfl, rfl⟩
        exact ⟨rfl, r, rfl⟩

lemma prefixOf_mem {p q : List Char} (h : p.isPrefixOf q = true) {x : Char}
    (hx : x ∈ p) : x ∈ q := by
  obtain ⟨r, rfl⟩ := prefixOf_iff.mp h
  exact List.mem_append_left r hx

lemma prefixOf_refl_append (p r : List Char) : p.isPrefixOf (p ++ r) = true :=
  prefixOf_iff.mpr ⟨r, rfl⟩

lemma takeWhile_append_of_stop {p : Char → Bool} {t : List Char} (a : List Char)
    (h : ∃ x ∈ t, p x = false) :
    (t ++ a).takeWhile p = t.takeWhile p ∧ (t ++ a).dropWhile p = t.dropWhile p ++ a := by
  induction t with
  | nil => simp at h
  | cons c t ih =>
    by_cases hc : p c = true
    · have h' : ∃ x ∈ t, p x = false := by
        obtain ⟨x, hx, hpx⟩ := h
        rcases List.mem_cons.mp hx with rfl | hx'
        · rw [hc] at hpx; cases hpx
        · exact ⟨x, hx', hpx⟩
      obtain ⟨ht, hd⟩ := ih h'
      simp [List.takeWhile_cons, List.dropWhile_cons, hc, ht, hd]
    · simp [List.takeWhile_cons, List.dropWhile_cons, hc]

lemma takeWhile_all_append {p : Char → Bool} {u a : List Char}
    (hu : ∀ x ∈ u, p x = true)
    (ha : a = [] ∨ ∃ c a', a = c :: a' ∧ p c = false) :
    (u ++ a).takeWhile p = u := by
  induction u with
  | nil =>
    rcases ha with rfl | ⟨c, a', rfl, hc⟩
    · rfl
    · simp [List.takeWhile_cons, hc]
  | cons c u ih =>
    have hc : p c = true := hu c (List.mem_cons_self c u)
    have ih' := ih (fun x hx => hu x (List.mem_cons_of_mem c hx))
    simp [List.takeWhile_cons, hc, ih']

lemma dropWhile_head_false {p : Char → Bool} {l : List Char} {c : Char} {t : List Char}
    (h : l.dropWhile p = c :: t) : p c = false := by
  induction l with
  | nil => simp [List.dropWhile] at h
  | cons a l ih =>
    by_cases ha : p a = true
    · rw [List.dropWhile_cons_of_pos ha] at h
      exact ih h
    · rw [List.dropWhile_cons_of_neg (by simp [ha])] at h
      cases h
      simpa using ha

lemma mem_dropWhile_imp {p : Char → Bool} {l : List Char} {x : Char}
    (h : x ∈ l.dropWhile p) : x ∈ l := by
  induction l with
  | nil => simp [List.dropWhile] at h
  | cons a l ih =>
    by_cases ha : p a = true
    · rw [List.dropWhile_cons_of_pos ha] at h
      exact List.mem_cons_of_mem a (ih h)
    · rwa [List.dropWhile_cons_of_neg (by simp [ha])] at h

lemma dropWhile_cons_of_exists {p : Char → Bool} {t : List Char}
    (h : ∃ x ∈ t, p x = false) :
    ∃ c t', t.dropWhile p = c :: t' ∧ p c = false := by
  cases hd : t.dropWhile p with
  | nil =>
    exfalso
    obtain ⟨x, hx, hpx⟩ := h
    have : ∀ x ∈ t, p x = true := by
      intro y hy
      have := List.takeWhile_append_dropWhile (p := p) (l := t)
      rw [hd, List.append_nil] at this
      rw [← this] at hy
      simpa using List.mem_takeWhile_imp hy
    rw [this x hx] at hpx
    cases hpx
  | cons c t' =>
    exact ⟨c, t', rfl, dropWhile_head_false hd⟩

lemma take_append_of_le {l a : List Char} {n : ℕ} (h : n ≤ l.length) :
    (l ++ a).take n = l.take n := by
  induction l generalizing n with
  | nil =>
    have : n = 0 := Nat.le_zero.mp h
    subst this
    simp
  | cons c l ih =>
    cases n with
    | zero => simp
    | succ m => simp [List.take_succ_cons, ih (Nat.succ_le_succ_iff.mp h)]

lemma drop_append_of_le {l a : List Char} {n : ℕ} (h : n ≤ l.length) :
    (l ++ a).drop n = l.drop n ++ a := by
  induction l generalizing n with
  | nil =>
    have : n = 0 := Nat.le_zero.mp h
    subst this
    simp
  | cons c l ih =>
    cases n with
    | zero => simp
    | succ m => simp [List.drop_succ_cons, ih (Nat.succ_le_succ_iff.mp h)]

/-! ## Relating the regex scan to the line decomposition -/

lemma subjectKw_length : subjectKw.length = 8 := by decide

lemma subjectKw_notTerm : ∀ c ∈ subjectKw, isLineTerm c = false := by decide

/-- On a line `l` (terminator-free, followed by a terminator or the end) that
begins with `Subject:` and has a non-whitespace character in its payload, the
regex attempt matches exactly the line, with the payload minus its leading
whitespace as the capture group; trimming the group equals trimming the
whole payload. -/
lemma matchAt_line {l a : List Char}
    (hpfx : subjectKw.isPrefixOf (l ++ a) = true)
    (hl : ∀ c ∈ l, isLineTerm c = false)
    (ha : a = [] ∨ ∃ c a', a = c :: a' ∧ isLineTerm c = true)
    (hnws : ∃ c ∈ l.drop 8, isJsSpace c = false) :
    matchAt (l ++ a) = some (l, (l.drop 8).dropWhile isJsSpace)
    ∧ trim ((l.drop 8).dropWhile isJsSpace) = trim (l.drop 8) := by
  have hlen : 8 ≤ l.length := by
    by_contra hlt
    push_neg at hlt
    have hnil : l.drop 8 = [] := List.drop_eq_nil_of_le (Nat.le_of_lt hlt)
    obtain ⟨c, hc, -⟩ := hnws
    rw [hnil] at hc
    exact absurd hc (List.not_mem_nil c)
  have h8 : subjectKw = l.take 8 := by
    obtain ⟨r, hr⟩ := prefixOf_iff.mp hpfx
    have : (l ++ a).take 8 = subjectKw := by
      rw [hr, ← subjectKw_length, List.take_left]
    rw [← this, take_append_of_le hlen]
  have hl8 : l = subjectKw ++ l.drop 8 := by
    conv_lhs => rw [← List.take_append_drop 8 l]
    rw [h8]
  set t := l.drop 8 with ht
  have hrest : (l ++ a).drop 8 = t ++ a := by
    rw [drop_append_of_le hlen]
  have hws : (t ++ a).takeWhile isJsSpace = t.takeWhile isJsSpace ∧
      (t ++ a).dropWhile isJsSpace = t.dropWhile isJsSpace ++ a :=
    takeWhile_append_of_stop a hnws
  obtain ⟨c0, t'', ht', hc0⟩ := dropWhile_cons_of_exists hnws
  have htmem : ∀ x ∈ t.dropWhile isJsSpace, isLineTerm x = false := by
    intro x hx
    exact hl x (List.mem_of_mem_drop (mem_dropWhile_imp hx))
  have hdot : ((t.dropWhile isJsSpace) ++ a).takeWhile (fun c => !isLineTerm c)
      = t.dropWhile isJsSpace := by
    apply takeWhile_all_append
    · intro x hx
      simp [htmem x hx]
    · rcases ha with rfl | ⟨c, a', rfl, hca⟩
      · exact Or.inl rfl
      · exact Or.inr ⟨c, a', rfl, by simp [hca]⟩
  constructor
  · rw [matchAt, if_pos hpfx]
    simp only [hrest, hws.1, hws.2, hdot]
    have hm0 : subjectKw ++ (t.takeWhile isJsSpace ++ t.dropWhile isJsSpace) = l := by
      rw [List.takeWhile_append_dropWhile, ← hl8]
    rw [List.append_assoc, hm0]
  · show trim (t.dropWhile isJsSpace) = trim t
    rw [trim, trim, List.dropWhile_idempotent]

lemma matchAt_some_of {l : List Char} (h : subjectKw.isPrefixOf l = true) :
    ∃ x, matchAt l = some x := by
  rw [matchAt, if_pos h]
  exact ⟨_, rfl⟩

lemma matchAt_none_of {l : List Char} (h : ¬ subjectKw.isPrefixOf l = true) :
    matchAt l = none := by
  rw [matchAt, if_neg h]

/-- From the takeWhile/dropWhile characterisation of a line decomposition:
the line is terminator-free and the remainder starts with a terminator. -/
lemma line_shape {l a : List Char}
    (hl : l = (l ++ a).takeWhile (fun x => !isLineTerm x))
    (ha : a = (l ++ a).dropWhile (fun x => !isLineTerm x)) :
    (∀ c ∈ l, isLineTerm c = false)
    ∧ (a = [] ∨ ∃ c a', a = c :: a' ∧ isLineTerm c = true) := by
  constructor
  · intro c hc
    have := List.mem_takeWhile_imp (p := fun x => !isLineTerm x) (l := l ++ a) (hl ▸ hc)
    simpa using this
  · cases ha' : a with
    | nil => exact Or.inl rfl
    | cons c a' =>
      have hdw : (l ++ a).dropWhile (fun x => !isLineTerm x) = c :: a' := by
        rw [← ha, ha']
      have hc := dropWhile_head_false hdw
      exact Or.inr ⟨c, a', rfl, by simpa using hc⟩

/-- The scan past position 0 agrees with the line decomposition past the first
line: they fail together, and on success the components decompose the text
and the scan result is the match attempt at the found line's start. -/
lemma splitAfterTerm_spec (raw : List Char) :
    (splitAfterTerm raw = none → scanAfterTerm raw = none)
    ∧ ∀ b l a, splitAfterTerm raw = some (b, l, a) →
        raw = b ++ l ++ a ∧ subjectKw.isPrefixOf (l ++ a) = true
        ∧ l = (l ++ a).takeWhile (fun x => !isLineTerm x)
        ∧ a = (l ++ a).dropWhile (fun x => !isLineTerm x)
        ∧ scanAfterTerm raw = matchAt (l ++ a) := by
  induction raw with
  | nil =>
    refine ⟨fun _ => rfl, fun b l a h => ?_⟩
    simp [splitAfterTerm] at h
  | cons c rest ih =>
    obtain ⟨ihn, ihs⟩ := ih
    have hre : rest.takeWhile (fun x => !isLineTerm x)
        ++ rest.dropWhile (fun x => !isLineTerm x) = rest :=
      List.takeWhile_append_dropWhile _ rest
    by_cases hterm : isLineTerm c = true
    · by_cases hpfx : subjectKw.isPrefixOf rest = true
      · have hsplit : splitAfterTerm (c :: rest)
            = some ([c], rest.takeWhile (fun x => !isLineTerm x),
                    rest.dropWhile (fun x => !isLineTerm x)) := by
          rw [splitAfterTerm, if_pos ⟨hterm, hpfx⟩]
        obtain ⟨x, hx⟩ := matchAt_some_of hpfx
        have hscan : scanAfterTerm (c :: rest) = matchAt rest := by
          rw [scanAfterTerm, if_pos hterm, hx]
        refine ⟨fun h => ?_, fun b l a h => ?_⟩
        · rw [hsplit] at h
          cases h
        · rw [hsplit] at h
          simp only [Option.some.injEq, Prod.mk.injEq] at h
          obtain ⟨hb, hl', ha'⟩ := h
          subst hb
          subst hl'
          subst ha'
          refine ⟨by simp [hre], by rw [hre]; exact hpfx, ?_, ?_, ?_⟩
          · rw [hre]
          · rw [hre]
          · rw [hre]
            exact hscan
      · have hsplit : splitAfterTerm (c :: rest)
            = (splitAfterTerm rest).map (fun t => (c :: t.1, t.2.1, t.2.2)) := by
          rw [splitAfterTerm, if_neg (by intro hcon; exact hpfx hcon.2)]
        have hscan : scanAfterTerm (c :: rest) = scanAfterTerm rest := by
          rw [scanAfterTerm, if_pos hterm, matchAt_none_of hpfx]
        cases hsr : splitAfterTerm rest with
        | none =>
          refine ⟨fun _ => ?_, fun b l a h => ?_⟩
          · rw [hscan]
            exact ihn hsr
          · rw [hsplit, hsr] at h
            cases h
        | some t =>
          obtain ⟨b', l', a'⟩ := t
          obtain ⟨h1, h2, h3, h4, h5⟩ := ihs b' l' a' hsr
          refine ⟨fun h => ?_, fun b l a h => ?_⟩
          · rw [hsplit, hsr] at h
            cases h
          · rw [hsplit, hsr] at h
            simp only [Option.map_some', Option.some.injEq, Prod.mk.injEq] at h
            obtain ⟨hb, hl', ha'⟩ := h
            subst hb
            subst hl'
            subst ha'
            exact ⟨by rw [h1]; simp, h2, h3, h4, by rw [hscan]; exact h5⟩
    · have hsplit : splitAfterTerm (c :: rest)
          = (splitAfterTerm rest).map (fun t => (c :: t.1, t.2.1, t.2.2)) := by
        rw [splitAfterTerm, if_neg (by intro hcon; exact hterm hcon.1)]
      have hscan : scanAfterTerm (c :: rest) = scanAfterTerm rest := by
        rw [scanAfterTerm, if_neg hterm]
      cases hsr : splitAfterTerm rest with
      | none =>
        refine ⟨fun _ => ?_, fun b l a h => ?_⟩
        · rw [hscan]
          exact ihn hsr
        · rw [hsplit, hsr] at h
          cases h
      | some t =>
        obtain ⟨b', l', a'⟩ := t
        obtain ⟨h1, h2, h3, h4, h5⟩ := ihs b' l' a' hsr
        refine ⟨fun h => ?_, fun b l a h => ?_⟩
        · rw [hsplit, hsr] at h
          cases h
        · rw [hsplit, hsr] at h
          simp only [Option.map_some', Option.some.injEq, Prod.mk.injEq] at h
          obtain ⟨hb, hl', ha'⟩ := h
          subst hb
          subst hl'
          subst ha'
          exact ⟨by rw [h1]; simp, h2, h3, h4, by rw [hscan]; exact h5⟩

/-- The embedded regex match agrees with the spec-side first-`Subject:`-line
decomposition whenever the found line's payload has a non-whitespace
character: the whole match is exactly that line and the trimmed capture group
is the trimmed payload. -/
lemma jsMatchSubject_of_split {raw b l a : List Char}
    (h : splitAtFirstSubjectLine raw = some (b, l, a))
    (hnws : ∃ c ∈ l.drop 8, isJsSpace c = false) :
    jsMatchSubject raw = some (l, (l.drop 8).dropWhile isJsSpace)
    ∧ trim ((l.drop 8).dropWhile isJsSpace) = trim (l.drop 8) := by
  by_cases hp : subjectKw.isPrefixOf raw = true
  · rw [splitAtFirstSubjectLine, if_pos hp] at h
    simp only [Option.some.injEq, Prod.mk.injEq] at h
    obtain ⟨hb, hl', ha'⟩ := h
    have hra : raw = l ++ a := by
      rw [← hl', ← ha']
      exact (List.takeWhile_append_dropWhile _ raw).symm
    have hl'' : l = (l ++ a).takeWhile (fun x => !isLineTerm x) := by
      rw [← hra]
      exact hl'.symm
    have ha'' : a = (l ++ a).dropWhile (fun x => !isLineTerm x) := by
      rw [← hra]
      exact ha'.symm
    obtain ⟨hlt, hat⟩ := line_shape hl'' ha''
    have hm := matchAt_line (hra ▸ hp) hlt hat hnws
    refine ⟨?_, hm.2⟩
    rw [jsMatchSubject, hra, hm.1]
  · rw [splitAtFirstSubjectLine, if_neg hp] at h
    obtain ⟨h1, h2, h3, h4, h5⟩ := (splitAfterTerm_spec raw).2 b l a h
    obtain ⟨hlt, hat⟩ := line_shape h3 h4
    have hm := matchAt_line h2 hlt hat hnws
    refine ⟨?_, hm.2⟩
    rw [jsMatchSubject, matchAt_none_of hp, h5, hm.1]

lemma takeWhile_append_all {p : Char → Bool} {u : List Char} (r : List Char)
    (hu : ∀ x ∈ u, p x = true) :
    (u ++ r).takeWhile p = u ++ r.takeWhile p := by
  induction u with
  | nil => rfl
  | cons c u ih =>
    have hc : p c = true := hu c (List.mem_cons_self c u)
    simp [List.takeWhile_cons, hc, ih (fun x hx => hu x (List.mem_cons_of_mem c hx))]

/-- If the keyword starts the text, it also starts the text's first line. -/
lemma prefixOf_firstLine {raw : List Char} (h : subjectKw.isPrefixOf raw = true) :
    subjectKw.isPrefixOf (raw.takeWhile (fun x => !isLineTerm x)) = true := by
  obtain ⟨r, rfl⟩ := prefixOf_iff.mp h
  rw [takeWhile_append_all r (by decide)]
  exact prefixOf_refl_append _ _

lemma jsLines_head (raw : List Char) :
    ∃ t, jsLines raw = raw.takeWhile (fun x => !isLineTerm x) :: t := by
  induction raw with
  | nil => exact ⟨[], rfl⟩
  | cons c rest ih =>
    by_cases hc : isLineTerm c = true
    · refine ⟨jsLines rest, ?_⟩
      rw [jsLines, if_pos hc, List.takeWhile_cons_of_neg (by simp [hc])]
    · obtain ⟨t, ht⟩ := ih
      refine ⟨t, ?_⟩
      rw [jsLines, if_neg hc, ht, List.takeWhile_cons_of_pos (by simp [hc])]

lemma scanAfterTerm_none_of_lines (raw : List Char)
    (h : ∀ l ∈ (jsLines raw).tail, ¬ subjectKw.isPrefixOf l = true) :
    scanAfterTerm raw = none := by
  induction raw with
  | nil => rfl
  | cons c rest ih =>
    by_cases hc : isLineTerm c = true
    · have htail : (jsLines (c :: rest)).tail = jsLines rest := by
        rw [jsLines, if_pos hc]
        rfl
      rw [htail] at h
      have hpfx : ¬ subjectKw.isPrefixOf rest = true := by
        intro hp
        obtain ⟨t, ht⟩ := jsLines_head rest
        exact h _ (ht ▸ List.mem_cons_self _ t) (prefixOf_firstLine hp)
      rw [scanAfterTerm, if_pos hc, matchAt_none_of hpfx]
      exact ih (fun l hl => h l (List.mem_of_mem_tail hl))
    · obtain ⟨t, ht⟩ := jsLines_head rest
      have htail : (jsLines (c :: rest)).tail = (jsLines rest).tail := by
        rw [jsLines, if_neg hc, ht]
        rfl
      rw [htail] at h
      rw [scanAfterTerm, if_neg hc]
      exact ih h

/-- When no line of the text starts with the keyword, the multiline regex
does not match. -/
lemma jsMatchSubject_none_of_lines (raw : List Char)
    (h : ∀ l ∈ jsLines raw, ¬ subjectKw.isPrefixOf l = true) :
    jsMatchSubject raw = none := by
  have hpfx : ¬ subjectKw.isPrefixOf raw = true := by
    intro hp
    obtain ⟨t, ht⟩ := jsLines_head raw
    exact h _ (ht ▸ List.mem_cons_self _ t) (prefixOf_firstLine hp)
  rw [jsMatchSubject, matchAt_none_of hpfx]
  exact scanAfterTerm_none_of_lines raw (fun l hl => h l (List.mem_of_mem_tail hl))

/-! ## Path normalisation lemmas -/

lemma splitSegs_ne_nil (t : List Char) : splitSegs t ≠ [] := by
  cases t with
  | nil => simp [splitSegs]
  | cons c rest =>
    rw [splitSegs]
    by_cases hc : c = '/'
    · simp [hc]
    · rw [if_neg hc]
      cases splitSegs rest <;> simp

lemma splitSegs_append_slash {d : List Char} (t : List Char) (hd : '/' ∉ d) :
    splitSegs (d ++ '/' :: t) = d :: splitSegs t := by
  induction d with
  | nil => simp [splitSegs]
  | cons c d ih =>
    have hc : c ≠ '/' := fun h => hd (h ▸ List.mem_cons_self c d)
    have ih' := ih (fun h => hd (List.mem_cons_of_mem c h))
    rw [List.cons_append, splitSegs, if_neg hc, ih']

lemma splitSegs_no_slash {t : List Char} (ht : '/' ∉ t) : splitSegs t = [t] := by
  induction t with
  | nil => rfl
  | cons c t ih =>
    have hc : c ≠ '/' := fun h => ht (h ▸ List.mem_cons_self c t)
    have ih' := ih (fun h => ht (List.mem_cons_of_mem c h))
    rw [splitSegs, if_neg hc, ih']

lemma intercalate_single (s x : List Char) : List.intercalate s [x] = x := by
  simp [List.intercalate]

/-- A parent-directory template name escapes the template directory: for an
absolute template directory `/<d>` and a slash-free stem `s`, the resolved
path of the name `../<s>` is `/<s>.txt`, outside `/<d>/`. -/
lemma templateFilePath_escape {d s : List Char}
    (hd0 : d ≠ []) (hd1 : d ≠ ['.']) (hd2 : d ≠ ['.', '.']) (hds : '/' ∉ d)
    (hs : '/' ∉ s) :
    templateFilePath ('/' :: d) ('.' :: '.' :: '/' :: s)
      = '/' :: (s ++ ".txt".toList) := by
  have hw : '/' ∉ s ++ ".txt".toList := by
    intro h
    rcases List.mem_append.mp h with h' | h'
    · exact hs h'
    · simp at h'
  have hsegs : splitSegs (('/' :: d) ++ '/' :: ('.' :: '.' :: '/' :: (s ++ ".txt".toList)))
      = [] :: d :: ['.', '.'] :: [s ++ ".txt".toList] := by
    rw [List.cons_append, splitSegs, if_pos rfl,
      splitSegs_append_slash _ hds]
    have : ('.' :: '.' :: '/' :: (s ++ ".txt".toList))
        = ['.', '.'] ++ '/' :: (s ++ ".txt".toList) := rfl
    rw [this, splitSegs_append_slash _ (by decide), splitSegs_no_slash hw]
  have hlen : (s ++ ".txt".toList).length = s.length + 4 := by
    simp
  have hww0 : s ++ ".txt".toList ≠ [] := by
    intro h
    have := congrArg List.length h
    rw [hlen] at this
    simp at this
  have hww1 : s ++ ".txt".toList ≠ ['.'] := by
    intro h
    have := congrArg List.length h
    rw [hlen] at this
    simp at this
  have hww2 : s ++ ".txt".toList ≠ ['.', '.'] := by
    intro h
    have := congrArg List.length h
    rw [hlen] at this
    simp at this
  have hnorm : normSegs ([] :: d :: ['.', '.'] :: [s ++ ".txt".toList]) []
      = [s ++ ".txt".toList] := by
    rw [normSegs, if_pos (Or.inl rfl)]
    rw [normSegs, if_neg (by rintro (h | h) <;> [exact hd0 h; exact hd1 h]),
      if_neg hd2]
    rw [normSegs, if_neg (by rintro (h | h) <;> simp at h), if_pos rfl]
    rw [normSegs, if_neg (by rintro (h | h) <;> [exact hww0 h; exact hww1 h]),
      if_neg hww2]
    rfl
  show pathJoinAbs ('/' :: d) (('.' :: '.' :: '/' :: s) ++ ".txt".toList) = _
  have harg : ('.' :: '.' :: '/' :: s) ++ ".txt".toList
      = '.' :: '.' :: '/' :: (s ++ ".txt".toList) := rfl
  rw [pathJoinAbs, harg, hsegs, hnorm, intercalate_single]

/-! ## Renderer lemmas -/

lemma lookupOrEmpty_mem {vars : List (List Char × List Char)} {n : List Char}
    (hn : n ∈ vars.map Prod.fst) : (n, lookupOrEmpty vars n) ∈ vars := by
  induction vars with
  | nil => simp at hn
  | cons p vs ih =>
    by_cases hp : p.1 == n
    · have hp' : p.1 = n := by simpa using hp
      have : lookupOrEmpty (p :: vs) n = p.2 := by
        simp [lookupOrEmpty, List.find?, hp]
      rw [this, ← hp']
      simp
    · have hrec : lookupOrEmpty (p :: vs) n = lookupOrEmpty vs n := by
        simp [lookupOrEmpty, List.find?, hp]
      have hn' : n ∈ vs.map Prod.fst := by
        rcases List.mem_map.mp hn with ⟨q, hq, hqn⟩
        rcases List.mem_cons.mp hq with rfl | hq'
        · exact absurd (by simp [hqn]) hp
        · exact List.mem_map.mpr ⟨q, hq', hqn⟩
      rw [hrec]
      exact List.mem_cons_of_mem p (ih hn')

lemma lookupOrEmpty_not_mem {vars : List (List Char × List Char)} {n : List Char}
    (hn : n ∉ vars.map Prod.fst) : lookupOrEmpty vars n = [] := by
  induction vars with
  | nil => rfl
  | cons p vs ih =>
    have hp : ¬ p.1 == n := by
      intro hp
      exact hn (List.mem_map.mpr ⟨p, List.mem_cons_self p vs, by simpa using hp⟩)
    have hrec : lookupOrEmpty (p :: vs) n = lookupOrEmpty vs n := by
      simp [lookupOrEmpty, List.find?, hp]
    rw [hrec]
    exact ih (fun h => hn (by
      rcases List.mem_map.mp h with ⟨q, hq, hqn⟩
      exact List.mem_map.mpr ⟨q, List.mem_cons_of_mem p hq, hqn⟩))

/-- Scanning a brace-free tag name accumulates it up to the closing braces. -/
lemma renderAux_tag (vars : List (List Char × List Char)) (name : List Char)
    (post acc : List Char) (h : '}' ∉ name) :
    renderAux vars (some acc) (name ++ '}' :: '}' :: post)
      = (renderAux vars none post).map
          (fun r => lookupOrEmpty vars (trim (acc ++ name)) ++ r) := by
  induction name generalizing acc with
  | nil => simp [renderAux]
  | cons c nm ih =>
    have hc : c ≠ '}' := fun hcc => h (hcc ▸ List.mem_cons_self c nm)
    have step : renderAux vars (some acc) (c :: (nm ++ '}' :: '}' :: post))
        = renderAux vars (some (acc ++ [c])) (nm ++ '}' :: '}' :: post) := by
      simp [renderAux, hc]
    rw [List.cons_append, step, ih (acc ++ [c]) (fun hm => h (List.mem_cons_of_mem c hm))]
    have : acc ++ [c] ++ nm = acc ++ c :: nm := by simp
    rw [this]

/-! ## Claim theorems -/

/-- Claim C1, counterexample: the claim states that a template name with a
parent-directory segment is rejected with `InvalidTemplateName` and the
filesystem outside the template directory is never touched.  In the code,
`sendTemplateEmail` performs no validation at all: resolving `../secret`
against the template directory `/srv/templates` consults the filesystem at
`/srv/secret.txt` — a path outside the template directory — and, when that
file exists, proceeds to read it instead of rejecting the name. -/
theorem c1_counterexample :
    resolveTemplate (fun _ => true) "/srv/templates".toList "../secret".toList
      = .readFile "/srv/secret.txt".toList
    ∧ ("/srv/templates/".toList).isPrefixOf "/srv/secret.txt".toList = false := by
  exact ⟨by decide, by decide⟩

/-- Claim C1, amended: the template-resolution step of `send_template_email`
performs no validation of the template name.  For an absolute template
directory `/<d>` and a slash-free stem `s`, the name `../<s>` resolves (after
path normalisation) to `/<s>.txt`, which is not under `/<d>/`; resolution
then reads that outside file when it exists and otherwise returns the textual
`Template not found` result — no `InvalidTemplateName` rejection exists. -/
theorem c1_no_name_validation (fs : List Char → Bool) (d s : List Char)
    (hd0 : d ≠ []) (hd1 : d ≠ ['.']) (hd2 : d ≠ ['.', '.'])
    (hds : '/' ∉ d) (hs : '/' ∉ s) :
    ¬ (('/' :: d ++ ['/']).isPrefixOf
        (templateFilePath ('/' :: d) ('.' :: '.' :: '/' :: s)) = true)
    ∧ (fs (templateFilePath ('/' :: d) ('.' :: '.' :: '/' :: s)) = true →
        resolveTemplate fs ('/' :: d) ('.' :: '.' :: '/' :: s)
          = .readFile (templateFilePath ('/' :: d) ('.' :: '.' :: '/' :: s)))
    ∧ (fs (templateFilePath ('/' :: d) ('.' :: '.' :: '/' :: s)) = false →
        resolveTemplate fs ('/' :: d) ('.' :: '.' :: '/' :: s)
          = .notFound ("Template not found: ".toList ++ ('.' :: '.' :: '/' :: s))) := by
  have hesc := templateFilePath_escape (s := s) hd0 hd1 hd2 hds hs
  refine ⟨?_, fun hex => ?_, fun hnex => ?_⟩
  · rw [hesc]
    intro hp
    obtain ⟨r, hr⟩ := prefixOf_iff.mp hp
    have hr' : s ++ ".txt".toList = d ++ '/' :: r := by
      have : '/' :: (s ++ ".txt".toList) = '/' :: (d ++ '/' :: r) := by
        rw [hr]
        simp
      exact List.cons.injEq .. |>.mp this |>.2
    have hmem : '/' ∈ s ++ ".txt".toList := by
      rw [hr']
      exact List.mem_append_right d (List.mem_cons_self '/' r)
    rcases List.mem_append.mp hmem with h' | h'
    · exact hs h'
    · simp at h'
  · rw [resolveTemplate]
    simp [hex]
  · rw [resolveTemplate]
    simp [hnex]

/-- Claim C1, witness for the amended theorem at the directory `/templates`
and the name `../secret` on a filesystem where every path exists. -/
theorem c1_witness :
    ¬ (('/' :: "templates".toList ++ ['/']).isPrefixOf
        (templateFilePath ('/' :: "templates".toList)
          ('.' :: '.' :: '/' :: "secret".toList)) = true)
    ∧ resolveTemplate (fun _ => true) ('/' :: "templates".toList)
        ('.' :: '.' :: '/' :: "secret".toList) = .readFile "/secret.txt".toList := by
  have h := c1_no_name_validation (fun _ => true) "templates".toList "secret".toList
    (by decide) (by decide) (by decide) (by decide) (by decide)
  exact ⟨h.1, (h.2.1 rfl).trans (by decide)⟩

/-- Claim C2, counterexample: the claim states that the composed subject is
never empty.  For the template text `Subject:` (a subject line with empty
payload) and the supplied fallback `Fallback`, the code computes the subject
`''.trim()`, which is empty — the fallback is not applied. -/
theorem c2_counterexample :
    (templateSubjectBody "Subject:".toList (some "Fallback".toList)).1 = [] := by
  decide

/-- Claim C2, amended: the composed subject follows the precedence
parsed-subject > fallback > literal `No Subject` (an empty fallback string is
treated as absent), and it is non-empty provided that any parsed subject is
non-empty after trimming; when the `Subject:` match carries a blank payload
the subject is the empty string and the fallback is not applied. -/
theorem c2_subject_precedence (raw : List Char) (fb : Option (List Char))
    (h : parsedSubjectNonempty raw = true) :
    (templateSubjectBody raw fb).1 ≠ []
    ∧ (templateSubjectBody raw fb).1
        = (match jsMatchSubject raw with
           | some p => trim p.2
           | none => jsOrDefault fb) := by
  cases hm : jsMatchSubject raw with
  | some p =>
    rw [parsedSubjectNonempty, hm] at h
    simp only [Bool.not_eq_true'] at h
    have hne : trim p.2 ≠ [] := by
      intro hnil
      rw [hnil] at h
      simp at h
    rw [templateSubjectBody, hm]
    exact ⟨hne, rfl⟩
  | none =>
    rw [templateSubjectBody, hm]
    refine ⟨?_, rfl⟩
    show jsOrDefault fb ≠ []
    cases fb with
    | none => decide
    | some f =>
      cases f with
      | nil => decide
      | cons c cs => simp [jsOrDefault]

/-- Claim C2, witness: a template with no subject line and a non-empty
fallback composes the fallback as subject. -/
theorem c2_witness :
    (templateSubjectBody "Hello".toList (some "S".toList)).1 ≠ []
    ∧ (templateSubjectBody "Hello".toList (some "S".toList)).1 = "S".toList := by
  have h := c2_subject_precedence "Hello".toList (some "S".toList) (by decide)
  exact ⟨h.1, h.2.trans (by decide)⟩

/-- Claim C3: the claim is right about the boundary (every failure is caught
and converted into a structured `McpError` response) but wrong about the
code's treatment of an unknown tool name.  Evaluating the handler at the
unknown name `nonexistent_tool` shows the `McpError(MethodNotFound)` thrown
by the `default` branch being caught by the handler's own `catch` and
re-wrapped as `McpError(InternalError, 'Error executing ...')`: the
method-not-found condition is surfaced as a generic internal error. -/
theorem c3_unknown_tool_generic_error :
    callToolModel (fun _ => .ok []) "nonexistent_tool".toList
      = .error (.mcpThrown .internalError
          ("Error executing nonexistent_tool: MCP error -32601: Unknown tool: nonexistent_tool".toList)) := by
  rfl

/-- Claim C4, counterexample: the claim states that the body is the original
text with the matched line removed, then trimmed.  For the text
`xSubject: A\nSubject: A`, the first line starting with `Subject:` is the
second line, so the claim predicts the body `xSubject: A`; but
`raw.replace(subjectMatch[0], '')` removes the first literal occurrence of
the matched text — inside the first line — and the code yields
`x\nSubject: A` instead. -/
theorem c4_counterexample :
    splitAtFirstSubjectLine "xSubject: A\nSubject: A".toList
      = some ("xSubject: A\n".toList, "Subject: A".toList, [])
    ∧ trim ("xSubject: A\n".toList ++ []) = "xSubject: A".toList
    ∧ (templateSubjectBody "xSubject: A\nSubject: A".toList none).2
      = "x\nSubject: A".toList
    ∧ "x\nSubject: A".toList ≠ "xSubject: A".toList := by
  exact ⟨by decide, by decide, by decide, by decide⟩

/-- Claim C4, amended: for every template text containing a line that starts
with `Subject:`, with a payload containing a non-whitespace character,
the composed subject is the trimmed payload of the first such line and the
body is the original text with the first literal occurrence of that line
removed, then trimmed (the removed occurrence is the matched line itself
whenever the line's text does not occur literally earlier). -/
theorem c4_first_line_semantics (raw b l a : List Char) (fb : Option (List Char))
    (hsplit : splitAtFirstSubjectLine raw = some (b, l, a))
    (hnws : ∃ c ∈ l.drop 8, isJsSpace c = false) :
    templateSubjectBody raw fb = (trim (l.drop 8), trim (replaceFirst l raw)) := by
  obtain ⟨hm, htr⟩ := jsMatchSubject_of_split hsplit hnws
  rw [templateSubjectBody, hm]
  simp only []
  rw [htr]

/-- Claim C4, witness: evaluation of the amended theorem on a template with a
subject line and a body line. -/
theorem c4_witness :
    splitAtFirstSubjectLine "Subject: Hello\nBody text".toList
      = some ([], "Subject: Hello".toList, "\nBody text".toList)
    ∧ templateSubjectBody "Subject: Hello\nBody text".toList none
      = ("Hello".toList, "Body text".toList) := by
  refine ⟨by decide, ?_⟩
  have h := c4_first_line_semantics "Subject: Hello\nBody text".toList
    [] "Subject: Hello".toList "\nBody text".toList none (by decide) (by decide)
  exact h.trans (by decide)

/-- Claim C5: when any of the four OAuth credentials (client id, client
secret, redirect URI, refresh token) is absent from the environment, each of
the five inbox-provider operations returns the structured not-configured
result; the result is the fixed message for every provider function, so no
provider call is attempted. -/
theorem c5_oauth_gating (env : List Char → Option (List Char))
    (h : ∃ k ∈ oauthEnvKeys, credPresent env k = false)
    (p0 : Unit → List Char) (args : List Char)
    (p1 p2 p3 p4 : List Char → List Char) :
    listLabelsOp env p0 = .notConfigured oauthMissingMsg
    ∧ listUnreadEmailsOp env args p1 = .notConfigured oauthMissingMsg
    ∧ getEmailOp env args p2 = .notConfigured oauthMissingMsg
    ∧ archiveEmailOp env args p3 = .notConfigured oauthMissingMsg
    ∧ deleteEmailOp env args p4 = .notConfigured oauthMissingMsg := by
  have hfalse : hasOAuthEnv env = false := by
    obtain ⟨k, hk, hc⟩ := h
    exact List.all_eq_false.mpr ⟨k, hk, by simp [hc]⟩
  have hens : ensureOAuthAvailable env = some oauthMissingMsg := by
    rw [ensureOAuthAvailable, hfalse]
    rfl
  exact ⟨by rw [listLabelsOp, hens], by rw [listUnreadEmailsOp, hens],
    by rw [getEmailOp, hens], by rw [archiveEmailOp, hens],
    by rw [deleteEmailOp, hens]⟩

/-- Claim C5, witness: an empty environment is missing every credential and
all five operations answer with the not-configured message. -/
theorem c5_witness :
    listLabelsOp (fun _ => none) (fun _ => []) = .notConfigured oauthMissingMsg
    ∧ listUnreadEmailsOp (fun _ => none) [] (fun _ => []) = .notConfigured oauthMissingMsg
    ∧ getEmailOp (fun _ => none) [] (fun _ => []) = .notConfigured oauthMissingMsg
    ∧ archiveEmailOp (fun _ => none) [] (fun _ => []) = .notConfigured oauthMissingMsg
    ∧ deleteEmailOp (fun _ => none) [] (fun _ => []) = .notConfigured oauthMissingMsg :=
  c5_oauth_gating (fun _ => none) (by decide) (fun _ => []) [] (fun _ => [])
    (fun _ => []) (fun _ => []) (fun _ => [])

/-- Claim C6: rendering a double-brace placeholder substitutes the value
bound to its (trimmed, brace-free) name — the looked-up value is one actually
bound to that name in the map — and an unbound name renders as the empty
string, with rendering continuing on the remaining text; no failure arises
from a missing key. -/
theorem c6_placeholder_semantics (vars : List (List Char × List Char))
    (name post : List Char) (h : '}' ∉ name) :
    renderTemplate ('{' :: '{' :: (name ++ '}' :: '}' :: post)) vars
      = (renderTemplate post vars).map (fun r => lookupOrEmpty vars (trim name) ++ r)
    ∧ (trim name ∈ vars.map Prod.fst →
        (trim name, lookupOrEmpty vars (trim name)) ∈ vars)
    ∧ (trim name ∉ vars.map Prod.fst → lookupOrEmpty vars (trim name) = []) := by
  refine ⟨?_, fun hm => lookupOrEmpty_mem hm, fun hm => lookupOrEmpty_not_mem hm⟩
  have hopen : renderTemplate ('{' :: '{' :: (name ++ '}' :: '}' :: post)) vars
      = renderAux vars (some []) (name ++ '}' :: '}' :: post) := by
    rw [renderTemplate]
    simp [renderAux]
  rw [hopen, renderAux_tag vars name post [] h]
  rfl

/-- Claim C6, witness: `\x7b\x7bname\x7d\x7d!` with `name` bound to `Ana`
renders to `Ana!`. -/
theorem c6_witness :
    renderTemplate ('{' :: '{' :: ("name".toList ++ '}' :: '}' :: "!".toList))
        [("name".toList, "Ana".toList)]
      = (renderTemplate "!".toList [("name".toList, "Ana".toList)]).map
          (fun r => lookupOrEmpty [("name".toList, "Ana".toList)] (trim "name".toList) ++ r)
    ∧ renderTemplate ('{' :: '{' :: ("name".toList ++ '}' :: '}' :: "!".toList))
        [("name".toList, "Ana".toList)] = .ok "Ana!".toList :=
  ⟨(c6_placeholder_semantics [("name".toList, "Ana".toList)] "name".toList
    "!".toList (by decide)).1, rfl⟩

/-- Claim C7: when rendering the subject or the body of a found template
fails, `sendTemplateEmail` surfaces the render failure and aborts — the
outcome is a render error, never a `sent` message, so nothing reaches the
delivery gateway. -/
theorem c7_render_failure_aborts (fsE : List Char → Bool) (fsR : List Char → List Char)
    (dir toA tmpl : List Char) (vars : List (List Char × List Char))
    (fb : Option (List Char))
    (hex : fsE (templateFilePath dir tmpl) = true)
    (herr : (isRenderError (renderTemplate
          (templateSubjectBody (fsR (templateFilePath dir tmpl)) fb).1 vars)
        || isRenderError (renderTemplate
          (templateSubjectBody (fsR (templateFilePath dir tmpl)) fb).2 vars)) = true) :
    ∃ e, sendTemplateEmailModel fsE fsR dir toA tmpl vars fb = .renderError e := by
  have hres : resolveTemplate fsE dir tmpl = .readFile (templateFilePath dir tmpl) := by
    rw [resolveTemplate]
    simp [hex]
  cases hr1 : renderTemplate
      (templateSubjectBody (fsR (templateFilePath dir tmpl)) fb).1 vars with
  | error e =>
    exact ⟨e, by rw [sendTemplateEmailModel, hres]; simp [hr1]⟩
  | ok rs =>
    cases hr2 : renderTemplate
        (templateSubjectBody (fsR (templateFilePath dir tmpl)) fb).2 vars with
    | error e =>
      exact ⟨e, by rw [sendTemplateEmailModel, hres]; simp [hr1, hr2]⟩
    | ok rb =>
      rw [hr1, hr2] at herr
      simp [isRenderError] at herr

/-- Claim C7, witness: a template whose subject contains an unclosed tag
yields the render failure `Unclosed tag` and no send. -/
theorem c7_witness :
    sendTemplateEmailModel (fun _ => true) (fun _ => "Subject: \x7b\x7bx\nBody".toList)
        "/t".toList "a@b.c".toList "w".toList [] none
      = .renderError "Unclosed tag" := by
  obtain ⟨e, he⟩ := c7_render_failure_aborts (fun _ => true)
    (fun _ => "Subject: \x7b\x7bx\nBody".toList) "/t".toList "a@b.c".toList "w".toList [] none
    rfl (by decide)
  exact he.trans (he.symm.trans (by rfl))

/-- Claim C8: when no line of the template text starts with `Subject:`, the
regex does not match (no subject line is parsed) and the body handed on is
the original text, unchanged and untrimmed. -/
theorem c8_no_subject_line (raw : List Char) (fb : Option (List Char))
    (h : ∀ l ∈ jsLines raw, ¬ subjectKw.isPrefixOf l = true) :
    jsMatchSubject raw = none ∧ (templateSubjectBody raw fb).2 = raw := by
  have hm := jsMatchSubject_none_of_lines raw h
  refine ⟨hm, ?_⟩
  rw [templateSubjectBody, hm]

/-- Claim C8, witness: a two-line template without any `Subject:` line parses
to no subject and an unchanged body. -/
theorem c8_witness :
    jsMatchSubject "Body only\nsecond line".toList = none
    ∧ (templateSubjectBody "Body only\nsecond line".toList none).2
      = "Body only\nsecond line".toList :=
  c8_no_subject_line "Body only\nsecond line".toList none (by decide)

/-- Claim C9: an existing empty template directory lists no names, and a
directory holding exactly `welcome.txt` and `followup.txt` (in any
enumeration order) lists exactly the names `welcome` and `followup`, each
the filename with the `.txt` extension stripped. -/
theorem c9_list_templates (files : List (List Char))
    (h : files.Perm ["welcome.txt".toList, "followup.txt".toList]) :
    listEmailTemplatesModel true [] = .namesJson []
    ∧ ∃ ns, listEmailTemplatesModel true files = .namesJson ns
        ∧ ns.Perm ["welcome".toList, "followup".toList] := by
  refine ⟨by decide, ⟨listTemplateNames files, rfl, ?_⟩⟩
  have h1 : (listTemplateNames files).Perm
      (listTemplateNames ["welcome.txt".toList, "followup.txt".toList]) := by
    unfold listTemplateNames
    exact (h.filter (fun f => ".txt".toList.isSuffixOf f)).map (fun f => f.take (f.length - 4))
  rw [show listTemplateNames ["welcome.txt".toList, "followup.txt".toList]
      = ["welcome".toList, "followup".toList] from by decide] at h1
  exact h1

/-- Claim C9, witness: the listing in the order `welcome.txt`, `followup.txt`
produces exactly the two names. -/
theorem c9_witness :
    listEmailTemplatesModel true [] = .namesJson []
    ∧ ∃ ns, listEmailTemplatesModel true ["welcome.txt".toList, "followup.txt".toList]
        = .namesJson ns ∧ ns.Perm ["welcome".toList, "followup".toList] :=
  c9_list_templates ["welcome.txt".toList, "followup.txt".toList] (List.Perm.refl _)

/-- Claim C10: when the template directory does not exist,
`listEmailTemplates` returns the successful textual result
`No templates directory found.` — not an error and not a (possibly empty)
name list, whatever the would-be directory contents. -/
theorem c10_missing_dir (files : List (List Char)) :
    listEmailTemplatesModel false files
      = .message "No templates directory found.".toList
    ∧ ∀ ns, listEmailTemplatesModel false files ≠ .namesJson ns := by
  refine ⟨rfl, fun ns h => ?_⟩
  simp [listEmailTemplatesModel] at h

/-- Claim C10, witness: evaluation at a one-file listing. -/
theorem c10_witness :
    listEmailTemplatesModel false ["welcome.txt".toList]
      = .message "No templates directory found.".toList :=
  (c10_missing_dir ["welcome.txt".toList]).1
